import Mathlib

/-!
# Verification of the r3f-peridot vertex welder

A shallow embedding of `src/utils/VertexWelder.ts` (functions `weldVertices`,
`computeEdgesToMerge`, `fillOutMergeMap`, `getVertexFromIndexBuffer`,
`hashVertex`, `getNormal` and the `Vector3` helper class), plus a model of the
surface segmenter contract, together with proofs about the claims of the
specification.

Modelling conventions, fixed once for the whole file:

* JavaScript `number` arithmetic on mesh data is modelled by exact rational
  arithmetic (`ℚ`).  Vertex indices are modelled by `ℕ`, following the data
  model of the spec ("identified by a 0-based index").
* `Math.round` rounds half-integers toward positive infinity, exactly like
  Mathlib's `round` (`round_eq : round x = ⌊x + 1/2⌋`), so position hashes are
  integer triples instead of the source's comma-separated strings; the
  encoding is injective, as the string one is.
* JavaScript objects used as maps are modelled by association lists
  (`lookupA`/`setA`/`delA` below); `setA` keeps the position of an existing
  key and appends new keys at the end, which is exactly the enumeration order
  of non-index string keys.  In `fillOutMergeMap` the source enumerates
  `Object.keys` of an object whose keys are canonical numeric strings; per the
  ECMAScript specification those are enumerated in ascending numeric order,
  which `sortKeys` below reproduces (vertex indices of a real mesh are below
  2^32, the array-index bound).
* The one comparison that is not rational — the face-normal angle test
  `normal1 . normal2 > Math.cos(DEG2RAD * thresholdAngle)` performed on
  normalized normals — is abstracted into a boolean parameter
  `test : Vector3 → Vector3 → Bool` applied to the two raw (unnormalized)
  cross products.  The predicate `smoothProp` states the source's comparison
  exactly (including the normalization and its zero-length guard), and
  `testAgrees test θ` says that `test` implements the source's comparison at
  threshold `θ` degrees.  Theorems about a fixed threshold quantify over all
  agreeing tests.
* Out-of-range buffer reads: the source reads `vertices[k]`, getting
  `undefined` out of range, and `new Vector3(undefined, undefined, undefined)`
  falls back to the default coordinates `0`; `getVertexFromIndexBuffer`
  reproduces this with `List.getD _ _ 0`.  The triangle loops read index
  triples `i, i+1, i+2`; for well-formed buffers (spec §6: index array length
  is 3 × triangle count, §7: other lengths are caller precondition
  violations) they visit exactly the complete triples modelled by `triples`.
-/

namespace Weld

open scoped List

/-- The `Vector3` class of the source, restricted to the data its methods
use: three rational coordinates. -/
structure Vector3 where
  x : ℚ
  y : ℚ
  z : ℚ
deriving DecidableEq, Repr

namespace Vector3

/-- `subVectors`: componentwise difference `a - b`. -/
def subVectors (a b : Vector3) : Vector3 :=
  ⟨a.x - b.x, a.y - b.y, a.z - b.z⟩

/-- `crossVectors`: the cross product of `a` and `b`. -/
def crossVectors (a b : Vector3) : Vector3 :=
  ⟨a.y * b.z - a.z * b.y, a.z * b.x - a.x * b.z, a.x * b.y - a.y * b.x⟩

/-- `dot`: the dot product. -/
def dot (a b : Vector3) : ℚ :=
  a.x * b.x + a.y * b.y + a.z * b.z

/-- `lengthSq`: squared Euclidean length. -/
def lengthSq (a : Vector3) : ℚ :=
  a.x * a.x + a.y * a.y + a.z * a.z

/-- The square of `distanceTo`.  The source compares
`v0.distanceTo(v2) > 0.1`; since both sides are nonnegative this comparison is
equivalent to `distanceToSq v0 v2 > 0.01`, which stays inside ℚ. -/
def distanceToSq (a b : Vector3) : ℚ :=
  (a.x - b.x) * (a.x - b.x) + (a.y - b.y) * (a.y - b.y) + (a.z - b.z) * (a.z - b.z)

end Vector3

/-- `getVertexFromIndexBuffer`: reads coordinates `index*3`, `index*3+1`,
`index*3+2` of the flat position array.  An out-of-range read yields
`undefined` in the source, and `Vector3`'s defaulted constructor turns
`undefined` coordinates into `0`, hence the default `0` here. -/
def getVertexFromIndexBuffer (index : ℕ) (positionAttr : List ℚ) : Vector3 :=
  ⟨positionAttr.getD (index * 3 + 0) 0,
   positionAttr.getD (index * 3 + 1) 0,
   positionAttr.getD (index * 3 + 2) 0⟩

/-- `hashVertex`: the source rounds each coordinate times `precision = 10^4`
and builds the string `a,b,c`; we keep the integer triple, an injective model
of that string. -/
def hashVertex (v : Vector3) : ℤ × ℤ × ℤ :=
  (round (v.x * 10000), round (v.y * 10000), round (v.z * 10000))

/-- `getNormal` computes the cross product `(c - b) × (a - b)` and then
normalizes it to unit length when its squared length is positive (returning
the zero vector otherwise).  We keep the raw cross product: over ℚ the
squared length is zero exactly when the cross product is the zero vector, so
no information is lost, and the normalization is accounted for inside
`smoothProp`, the semantic statement of the only comparison ever applied to
these normals. -/
def getNormal (a b c : Vector3) : Vector3 :=
  Vector3.crossVectors (Vector3.subVectors c b) (Vector3.subVectors a b)

/-- Association-list lookup; models reading a property of a JS object
(`none` = the key is absent, i.e. the read yields `undefined`). -/
def lookupA {α β : Type} [DecidableEq α] : List (α × β) → α → Option β
  | [], _ => none
  | (k, v) :: rest, a => if k = a then some v else lookupA rest a

/-- Association-list assignment; models `obj[key] = value`: an existing key
keeps its position, a new key is appended (JS insertion order). -/
def setA {α β : Type} [DecidableEq α] : List (α × β) → α → β → List (α × β)
  | [], a, b => [(a, b)]
  | (k, v) :: rest, a, b => if k = a then (k, b) :: rest else (k, v) :: setA rest a b

/-- Association-list removal; models `delete obj[key]`. -/
def delA {α β : Type} [DecidableEq α] : List (α × β) → α → List (α × β)
  | [], _ => []
  | (k, v) :: rest, a => if k = a then rest else (k, v) :: delA rest a

/-- A stored edge record of `computeEdgesToMerge`: `{index0, index1, normal}`.
The stored normal is the raw cross product (see `getNormal`). -/
structure EdgeData where
  index0 : ℕ
  index1 : ℕ
  normal : Vector3
deriving DecidableEq, Repr

/-- A position hash (see `hashVertex`). -/
abbrev VHash := ℤ × ℤ × ℤ

/-- The `edgeData` table: edge key (pair of position hashes, modelling the
string `h0_h1`) to either a record (`some`) or the consumed marker `null`
(`none`); an absent key is an absent list entry. -/
abbrev EdgeMap := List ((VHash × VHash) × Option EdgeData)

/-- One entry of the `edgesToMerge` result: a pair of edges, each a pair of
original vertex indices (the source's `[[i0,i1],[j0,j1]]`). -/
abbrev MergePair := (ℕ × ℕ) × (ℕ × ℕ)

/-- The per-edge body of the edge loop of `computeEdgesToMerge` (`j = 0,1,2`).
`e` carries the two endpoint hashes (in traversal order) and the two endpoint
indices.  If the reversed key is present and not consumed
(`reverseHash in edgeData && edgeData[reverseHash]`), the sibling is found:
the merge pair `(storedEdge, currentEdge)` is emitted when the angle test
passes, and the reversed key is marked consumed (`null`) regardless.
Otherwise the edge is inserted under its forward key when that key is absent
(`else if (!(hash in edgeData))`). -/
def processEdge (test : Vector3 → Vector3 → Bool) (normal : Vector3)
    (st : EdgeMap × List MergePair) (e : (VHash × VHash) × (ℕ × ℕ)) :
    EdgeMap × List MergePair :=
  let hash := e.1
  let reverseHash := (e.1.2, e.1.1)
  match lookupA st.1 reverseHash with
  | some (some ed) =>
      (setA st.1 reverseHash none,
       if test normal ed.normal then
         st.2 ++ [((ed.index0, ed.index1), e.2)]
       else st.2)
  | _ =>
      if lookupA st.1 hash = none then
        (setA st.1 hash (some ⟨e.2.1, e.2.2, normal⟩), st.2)
      else st

/-- The per-triangle body of `computeEdgesToMerge`: fetch the three vertices,
compute the face normal and the three position hashes, skip the triangle when
any two hashes coincide (degenerate), else run the edge loop over the three
directed edges `(0,1)`, `(1,2)`, `(2,0)`. -/
def processTriangle (test : Vector3 → Vector3 → Bool) (vertices : List ℚ)
    (st : EdgeMap × List MergePair) (tri : ℕ × ℕ × ℕ) :
    EdgeMap × List MergePair :=
  let a := getVertexFromIndexBuffer tri.1 vertices
  let b := getVertexFromIndexBuffer tri.2.1 vertices
  let c := getVertexFromIndexBuffer tri.2.2 vertices
  let normal := getNormal a b c
  let h0 := hashVertex a
  let h1 := hashVertex b
  let h2 := hashVertex c
  if h0 = h1 ∨ h1 = h2 ∨ h2 = h0 then st
  else
    List.foldl (processEdge test normal) st
      [((h0, h1), (tri.1, tri.2.1)),
       ((h1, h2), (tri.2.1, tri.2.2)),
       ((h2, h0), (tri.2.2, tri.1))]

/-- The complete triples of the index buffer, i.e. the triangles the loops
`for (i = 0; i < indices.length; i += 3)` visit on a well-formed buffer. -/
def triples : List ℕ → List (ℕ × ℕ × ℕ)
  | a :: b :: c :: rest => (a, b, c) :: triples rest
  | _ => []

/-- `computeEdgesToMerge`: scan all triangles, building the `edgeData` table
and collecting the merge pairs.  The source computes
`thresholdDot = cos(DEG2RAD * thresholdAngle)` here and compares normalized
normals against it; that comparison is the `test` parameter (see `smoothProp`
and `testAgrees`). -/
def computeEdgesToMerge (test : Vector3 → Vector3 → Bool) (vertices : List ℚ)
    (indices : List ℕ) : List MergePair :=
  (List.foldl (processTriangle test vertices) ([], []) (triples indices)).2

/-- The state threaded through the main triangle loop of `weldVertices`:
`eMap` is `edgesToMergeMap` (edge key, a pair of indices modelling the string
`${i0}_${i1}`, to merge pair), `mergedMap` maps a kept vertex to the list of
vertices merged into it, `vertexAliases` maps a deleted vertex to its
replacement. -/
structure WeldState where
  eMap : List ((ℕ × ℕ) × MergePair)
  mergedMap : List (ℕ × List ℕ)
  vertexAliases : List (ℕ × ℕ)
deriving DecidableEq, Repr

/-- `edgesToMergeMap` construction: each pair is keyed under both of its
edges. -/
def buildEdgesToMergeMap (pairs : List MergePair) : List ((ℕ × ℕ) × MergePair) :=
  pairs.foldl (fun m p => setA (setA m p.1 p) p.2 p) []

/-- The `merge` helper of `weldVertices`: create the entry if needed, then
push. -/
def mergePush (m : List (ℕ × List ℕ)) (i1 i2 : ℕ) : List (ℕ × List ℕ) :=
  match lookupA m i1 with
  | none => setA m i1 [i2]
  | some l => setA m i1 (l ++ [i2])

/-- The `aliasDeletedVertex` helper: record `deletedVertex → remainingVertex`
unless they are equal. -/
def aliasDeletedVertex (al : List (ℕ × ℕ)) (deletedVertex remainingVertex : ℕ) :
    List (ℕ × ℕ) :=
  if deletedVertex = remainingVertex then al else setA al deletedVertex remainingVertex

/-- The alias-replacement step `if (vertexAliases[i]) i = vertexAliases[i]`.
This is a truthiness test on the stored number: an alias whose value is the
vertex index `0` is falsy and is NOT applied (the defect flagged in spec §9). -/
def resolveAlias (al : List (ℕ × ℕ)) (i : ℕ) : ℕ :=
  match lookupA al i with
  | some v => if v = 0 then i else v
  | none => i

/-- The body of the edge loop of `weldVertices` for one edge `e` of the
current triangle.  Mirrors the source line by line: look the edge key and the
reversed key up in `edgesToMergeMap` (the reversed one wins when both are
present, since the source assigns `edgeToMerge` twice); pick
`otherEdge`/`originalEdge` out of the stored pair; skip degenerate self
edges; swap `index2`/`index3` when the endpoints `index0`,`index2` are more
than `0.1` apart (compared via squared distance, see `distanceToSq`); resolve
the four indices through `vertexAliases` (truthily, see `resolveAlias`);
record the merges and aliases; delete the used key and `${index2}_${index3}`. -/
def processWeldEdge (vertices : List ℚ) (st : WeldState) (e : ℕ × ℕ) : WeldState :=
  let index0 := e.1
  let index1 := e.2
  let keyAndPair : Option ((ℕ × ℕ) × MergePair) :=
    match lookupA st.eMap (e.2, e.1) with
    | some p => some ((e.2, e.1), p)
    | none =>
      match lookupA st.eMap (e.1, e.2) with
      | some p => some ((e.1, e.2), p)
      | none => none
  match keyAndPair with
  | none => st
  | some (keyToUse, possibleEdges) =>
    let possibleEdge1 := possibleEdges.1
    let possibleEdge2 := possibleEdges.2
    let chosen :=
      if (possibleEdge1.1 = index0 ∧ possibleEdge1.2 = index1) ∨
         (possibleEdge1.1 = index1 ∧ possibleEdge1.2 = index0) then
        (possibleEdge2, possibleEdge1)
      else (possibleEdge1, possibleEdge2)
    let otherEdge := chosen.1
    let originalEdge := chosen.2
    let index2 := otherEdge.1
    let index3 := otherEdge.2
    let index0 := originalEdge.1
    let index1 := originalEdge.2
    if index0 = index2 ∧ index1 = index3 then st
    else
      let v0 := getVertexFromIndexBuffer index0 vertices
      let v2 := getVertexFromIndexBuffer index2 vertices
      let swapped :=
        if Vector3.distanceToSq v0 v2 > 1 / 100 then (index3, index2)
        else (index2, index3)
      let index2 := swapped.1
      let index3 := swapped.2
      let index0 := resolveAlias st.vertexAliases index0
      let index1 := resolveAlias st.vertexAliases index1
      let index2 := resolveAlias st.vertexAliases index2
      let index3 := resolveAlias st.vertexAliases index3
      let mm := mergePush (mergePush st.mergedMap index0 index2) index1 index3
      let al := aliasDeletedVertex (aliasDeletedVertex st.vertexAliases index2 index0)
        index3 index1
      let em := delA (delA st.eMap keyToUse) (index2, index3)
      ⟨em, mm, al⟩

/-- The per-triangle body of the main loop of `weldVertices`: the three edges
are `(i1,i2)`, `(i1,i3)`, `(i2,i3)` (note: not the cyclic order used by
`computeEdgesToMerge`). -/
def processWeldTriangle (vertices : List ℚ) (st : WeldState) (tri : ℕ × ℕ × ℕ) :
    WeldState :=
  List.foldl (processWeldEdge vertices) st
    [(tri.1, tri.2.1), (tri.1, tri.2.2), (tri.2.1, tri.2.2)]

/-- Ascending insertion into a sorted list of keys. -/
def insertSorted (a : ℕ) : List ℕ → List ℕ
  | [] => [a]
  | b :: rest => if a ≤ b then a :: b :: rest else b :: insertSorted a rest

/-- Ascending sort of the key list.  `Object.keys` of a JS object whose keys
are canonical numeric strings below 2^32 enumerates them in ascending numeric
order (ECMAScript array-index keys come first, ascending); vertex indices of
a mesh are such keys. -/
def sortKeys (l : List ℕ) : List ℕ :=
  l.foldr insertSorted []

/-- `fillOutMergeMap`: for every key `k` of `mergedMap` (in `Object.keys`
order, i.e. ascending, see `sortKeys`) and every index `ind` in its list, set
`newMergeMap[ind] = k`. -/
def fillOutMergeMap (mergeMap : List (ℕ × List ℕ)) : List (ℕ × ℕ) :=
  (sortKeys (mergeMap.map Prod.fst)).foldl
    (fun nm k =>
      match lookupA mergeMap k with
      | some inds => inds.foldl (fun nm2 ind => setA nm2 ind k) nm
      | none => nm)
    []

/-- The flattened alias table `finalMergeMap` computed inside `weldVertices`:
run `computeEdgesToMerge`, convert the pair list to `edgesToMergeMap`, run
the main triangle loop, and flatten `mergedMap`. -/
def weldAliasTable (test : Vector3 → Vector3 → Bool) (vertices : List ℚ)
    (indices : List ℕ) : List (ℕ × ℕ) :=
  let edgesToMerge := computeEdgesToMerge test vertices indices
  let st0 : WeldState := ⟨buildEdgesToMergeMap edgesToMerge, [], []⟩
  let stF := List.foldl (processWeldTriangle vertices) st0 (triples indices)
  fillOutMergeMap stF.mergedMap

/-- `weldVertices`: compute the flattened alias table, then rewrite the index
buffer elementwise: `if (finalMergeMap[index] != undefined) newIndex =
finalMergeMap[index]` — a presence test, not a truthiness test. -/
def weldVertices (test : Vector3 → Vector3 → Bool) (vertices : List ℚ)
    (indices : List ℕ) : List ℕ :=
  let finalMergeMap := weldAliasTable test vertices indices
  indices.map fun index =>
    match lookupA finalMergeMap index with
    | some newIndex => newIndex
    | none => index

/-- The source's angle test at threshold `θ` degrees, stated exactly over ℝ:
the dot product of the two normalized normals exceeds
`cos(DEG2RAD * thresholdAngle)`.  `getNormal` divides the raw cross product
by its length when positive and yields the zero vector otherwise; dividing
the rational dot product by the product of the two lengths reproduces both
cases at once, because division by zero is zero in Lean's reals, matching the
zero-normal dot product of the source. -/
def smoothProp (θ : ℚ) (n1 n2 : Vector3) : Prop :=
  (Vector3.dot n1 n2 : ℝ) /
      (Real.sqrt (Vector3.lengthSq n1 : ℝ) * Real.sqrt (Vector3.lengthSq n2 : ℝ)) >
    Real.cos ((θ : ℝ) * Real.pi / 180)

/-- `test` implements the source's face-normal comparison at threshold `θ`
degrees. -/
def testAgrees (test : Vector3 → Vector3 → Bool) (θ : ℚ) : Prop :=
  ∀ n1 n2 : Vector3, test n1 n2 = true ↔ smoothProp θ n1 n2

/-- Scenario A of the spec: two coplanar unit right triangles; the second
triangle duplicates the shared edge's endpoints (vertex 3 coincides with
vertex 1 and vertex 5 with vertex 2 by position). -/
def verticesA : List ℚ :=
  [0, 0, 0, 1, 0, 0, 0, 1, 0, 1, 0, 0, 1, 1, 0, 0, 1, 0]

/-- Scenario A index buffer: the two triangles `(0,1,2)` and `(3,4,5)`. -/
def indicesA : List ℕ := [0, 1, 2, 3, 4, 5]

/-- A coplanar quad one hundredth of a unit across, split into the two
triangles `(0,1,2)` and `(2,1,3)` that already share the indices of their
common edge; that edge is about `0.014` units long, shorter than the `0.1`
correspondence tolerance of `weldVertices`. -/
def verticesTiny : List ℚ :=
  [0, 0, 0, 1/100, 0, 0, 0, 1/100, 0, 1/100, 1/100, 0]

/-- The index buffer of the tiny quad. -/
def indicesTiny : List ℕ := [0, 1, 2, 2, 1, 3]

/-- Two faces meeting at exactly 90 degrees: triangle `(0,1,2)` lies in the
`z = 0` plane (face normal `(0,0,1)`), triangle `(3,4,5)` duplicates the
shared edge's endpoints by position (vertex 3 at vertex 1, vertex 4 at
vertex 0) and rises into `z` (face normal `(0,1,0)`). -/
def verticesPerp : List ℚ :=
  [0, 0, 0, 1, 0, 0, 0, 1, 0, 1, 0, 0, 0, 0, 0, 0, 0, 1]

/-- The index buffer of the perpendicular pair. -/
def indicesPerp : List ℕ := [0, 1, 2, 3, 4, 5]

/-- The surface segmenter session object: it owns the running identifier
counter `surfaceId` (spec §3: the counter persists across meshes within one
session). -/
structure FindSurfaces where
  surfaceId : ℕ
deriving DecidableEq, Repr

/-- Modelled from the spec: `FindSurfaces.getSurfaceIdAttribute` of
`src/utils/FindSurfaces.ts` is missing from the available source tree (only
its tests and its caller `OutlineEffect.tsx` are present).  Per spec §3/§4.4
one invocation discovers the surfaces of one mesh in order and assigns each
the next identifier, monotonically increasing from the instance's current
counter, leaving the counter past the identifiers just assigned.  A mesh is
abstracted by its number of surfaces; the call returns the list of
identifiers assigned (in discovery order) and the updated segmenter. -/
def getSurfaceIdAttribute (s : FindSurfaces) (surfaceCount : ℕ) :
    List ℕ × FindSurfaces :=
  ((List.range surfaceCount).map fun k => s.surfaceId + 1 + k,
   ⟨s.surfaceId + surfaceCount⟩)

/-- The identifier lists produced by running one segmenter instance over a
sequence of meshes (each given by its surface count). -/
def runSegmenter (s : FindSurfaces) : List ℕ → List (List ℕ)
  | [] => []
  | c :: rest =>
      (getSurfaceIdAttribute s c).1 :: runSegmenter (getSurfaceIdAttribute s c).2 rest

/-- The counter value after running one segmenter instance over a sequence of
meshes. -/
def counterAfter (s : FindSurfaces) : List ℕ → ℕ
  | [] => s.surfaceId
  | c :: rest => counterAfter (getSurfaceIdAttribute s c).2 rest

/-- All four vertex indices of a merge pair satisfy `P`. -/
def PairOK (P : ℕ → Prop) (p : MergePair) : Prop :=
  P p.1.1 ∧ P p.1.2 ∧ P p.2.1 ∧ P p.2.2

/-- Every vertex index stored in the edge-matcher state satisfies `P`. -/
def EdgeStOK (P : ℕ → Prop) (st : EdgeMap × List MergePair) : Prop :=
  (∀ kv ∈ st.1, ∀ ed, kv.2 = some ed → P ed.index0 ∧ P ed.index1) ∧
  (∀ p ∈ st.2, PairOK P p)

/-- Every vertex index stored in the weld state satisfies `P`. -/
def WeldStOK (P : ℕ → Prop) (st : WeldState) : Prop :=
  (∀ kv ∈ st.eMap, PairOK P kv.2) ∧
  (∀ kv ∈ st.mergedMap, P kv.1 ∧ ∀ x ∈ kv.2, P x) ∧
  (∀ kv ∈ st.vertexAliases, P kv.1 ∧ P kv.2)

/-- Two coplanar unit triangles whose shared edge contains vertex 0 — the
second triangle duplicates that edge's endpoints (vertex 3 at vertex 1's
position, vertex 4 at vertex 0's position) — plus a perpendicular "wing":
triangles `(4,6,7)` (face normal `(0,1,0)`) and `(6,4,8)` (face normal
`(-1,0,0)`) already share the indices 4 and 6 of their common edge, and
their faces meet at exactly 90 degrees. -/
def verticesC6 : List ℚ :=
  [0, 0, 0, 1, 0, 0, 0, 1, 0, 1, 0, 0, 0, 0, 0, 1, -1, 0, 0, 0, 1, 1, 0, 1, 0, -1, 0]

/-- The index buffer of the `verticesC6` mesh: triangles `(0,1,2)`,
`(3,4,5)`, `(4,6,7)`, `(6,4,8)`. -/
def indicesC6 : List ℕ := [0, 1, 2, 3, 4, 5, 4, 6, 7, 6, 4, 8]

/-- The number of welded vertex pairs produced by one `weldVertices` run,
read off the flattened alias table the run applies: each entry that maps a
vertex index to a different representative welds that one vertex pair (an
entry mapping an index to itself welds nothing). -/
def weldedPairCount (test : Vector3 → Vector3 → Bool) (vertices : List ℚ)
    (indices : List ℕ) : ℕ :=
  ((weldAliasTable test vertices indices).filter (fun kv => kv.1 != kv.2)).length

/-- The number of positions of the index buffer that one `weldVertices` run
actually rewrites — the other observable count of welding work done. -/
def rewrittenCount (test : Vector3 → Vector3 → Bool) (vertices : List ℚ)
    (indices : List ℕ) : ℕ :=
  (List.zip indices (weldVertices test vertices indices)).countP (fun p => p.1 != p.2)

/-! ## Semantic facts about the threshold comparison -/

theorem lengthSq_nonneg (n : Vector3) : 0 ≤ Vector3.lengthSq n :=
  add_nonneg (add_nonneg (mul_self_nonneg n.x) (mul_self_nonneg n.y)) (mul_self_nonneg n.z)

theorem lengthSq_eq_zero_iff (n : Vector3) :
    Vector3.lengthSq n = 0 ↔ n = ⟨0, 0, 0⟩ := by
  unfold Vector3.lengthSq
  constructor
  · intro h
    have hx : n.x * n.x = 0 := le_antisymm
      (by nlinarith [mul_self_nonneg n.y, mul_self_nonneg n.z]) (mul_self_nonneg n.x)
    have hy : n.y * n.y = 0 := le_antisymm
      (by nlinarith [mul_self_nonneg n.x, mul_self_nonneg n.z]) (mul_self_nonneg n.y)
    have hz : n.z * n.z = 0 := le_antisymm
      (by nlinarith [mul_self_nonneg n.x, mul_self_nonneg n.y]) (mul_self_nonneg n.z)
    cases n
    simp only [Vector3.mk.injEq]
    exact ⟨mul_self_eq_zero.mp hx, mul_self_eq_zero.mp hy, mul_self_eq_zero.mp hz⟩
  · intro h
    rw [h]
    norm_num

theorem smoothProp_ninety_iff (n1 n2 : Vector3) :
    smoothProp 90 n1 n2 ↔ 0 < Vector3.dot n1 n2 := by
  unfold smoothProp
  have hcos : Real.cos (((90 : ℚ) : ℝ) * Real.pi / 180) = 0 := by
    have h : ((90 : ℚ) : ℝ) * Real.pi / 180 = Real.pi / 2 := by
      push_cast
      ring
    rw [h, Real.cos_pi_div_two]
  rw [hcos]
  rcases eq_or_lt_of_le (lengthSq_nonneg n1) with h1 | h1
  · have hn1 : n1 = ⟨0, 0, 0⟩ := (lengthSq_eq_zero_iff n1).mp h1.symm
    subst hn1
    simp [Vector3.dot]
  · rcases eq_or_lt_of_le (lengthSq_nonneg n2) with h2 | h2
    · have hn2 : n2 = ⟨0, 0, 0⟩ := (lengthSq_eq_zero_iff n2).mp h2.symm
      subst hn2
      simp [Vector3.dot]
    · have s1 : (0 : ℝ) < Real.sqrt ((Vector3.lengthSq n1 : ℚ) : ℝ) :=
        Real.sqrt_pos.mpr (by exact_mod_cast h1)
      have s2 : (0 : ℝ) < Real.sqrt ((Vector3.lengthSq n2 : ℚ) : ℝ) :=
        Real.sqrt_pos.mpr (by exact_mod_cast h2)
      constructor
      · intro h
        rcases div_pos_iff.mp h with ⟨hd, _⟩ | ⟨_, hneg⟩
        · exact_mod_cast hd
        · exact absurd (mul_pos s1 s2) (not_lt_of_lt hneg)
      · intro h
        exact div_pos (by exact_mod_cast h) (mul_pos s1 s2)

theorem smoothProp_one_refl : smoothProp 1 ⟨0, 0, 1⟩ ⟨0, 0, 1⟩ := by
  unfold smoothProp
  have hd : Vector3.dot ⟨0, 0, 1⟩ ⟨0, 0, 1⟩ = 1 := by
    norm_num [Vector3.dot]
  have hl : Vector3.lengthSq ⟨0, 0, 1⟩ = 1 := by
    norm_num [Vector3.lengthSq]
  rw [hd, hl]
  have hpi := Real.pi_pos
  have hne : Real.cos (Real.pi / 180) ≠ 1 := by
    intro h
    have h0 := (Real.cos_eq_one_iff_of_lt_of_lt (by nlinarith) (by nlinarith)).mp h
    nlinarith
  have hlt : Real.cos (Real.pi / 180) < 1 := lt_of_le_of_ne (Real.cos_le_one _) hne
  have hform : ((1 : ℚ) : ℝ) / (Real.sqrt ((1 : ℚ) : ℝ) * Real.sqrt ((1 : ℚ) : ℝ)) = 1 := by
    push_cast
    rw [Real.sqrt_one]
    norm_num
  have harg : ((1 : ℚ) : ℝ) * Real.pi / 180 = Real.pi / 180 := by
    push_cast
    ring
  rw [hform, harg]
  exact hlt

theorem smoothDecide_agrees (θ : ℚ) :
    testAgrees (fun n1 n2 : Vector3 =>
      @decide (smoothProp θ n1 n2) (Classical.propDecidable _)) θ := by
  intro n1 n2
  show @decide (smoothProp θ n1 n2) (Classical.propDecidable _) = true ↔ smoothProp θ n1 n2
  exact ⟨fun h => @of_decide_eq_true _ (Classical.propDecidable _) h,
         fun h => @decide_eq_true _ (Classical.propDecidable _) h⟩

theorem smoothProp_mono (θ1 θ2 : ℚ) (h0 : 0 ≤ θ1) (h12 : θ1 ≤ θ2) (h180 : θ2 ≤ 180)
    (n1 n2 : Vector3) (h : smoothProp θ1 n1 n2) : smoothProp θ2 n1 n2 := by
  unfold smoothProp at h ⊢
  have hpi := Real.pi_pos
  have hx : (0 : ℝ) ≤ (θ1 : ℝ) * Real.pi / 180 := by
    have h1 : (0 : ℝ) ≤ (θ1 : ℝ) := by exact_mod_cast h0
    positivity
  have hy : (θ2 : ℝ) * Real.pi / 180 ≤ Real.pi := by
    have h2 : (θ2 : ℝ) ≤ 180 := by exact_mod_cast h180
    nlinarith
  have hxy : (θ1 : ℝ) * Real.pi / 180 ≤ (θ2 : ℝ) * Real.pi / 180 := by
    have h12r : (θ1 : ℝ) ≤ (θ2 : ℝ) := by exact_mod_cast h12
    nlinarith
  exact lt_of_le_of_lt (Real.cos_le_cos_of_nonneg_of_le_pi hx hy hxy) h

/-! ## Claim theorems: concrete scenarios -/

/-- C1: on scenario A — two coplanar unit right triangles whose shared-edge
vertices are duplicated (vertex 3 at vertex 1's position, vertex 5 at vertex
2's position), index buffer `[0,1,2,3,4,5]`, threshold 1 degree —
`weldVertices` returns exactly `[0,1,2,1,4,2]`.  The threshold test is the
source's comparison at 1 degree (any boolean function implementing
`smoothProp 1`; here its classical decision function). -/
theorem weldVertices_scenarioA :
    weldVertices (fun n1 n2 : Vector3 =>
        @decide (smoothProp 1 n1 n2) (Classical.propDecidable _))
      verticesA indicesA = [0, 1, 2, 1, 4, 2] := by
  norm_num [weldVertices, weldAliasTable, computeEdgesToMerge, triples, processTriangle,
    processEdge, getVertexFromIndexBuffer, hashVertex, getNormal, Vector3.crossVectors,
    Vector3.subVectors, Vector3.dot, Vector3.lengthSq, Vector3.distanceToSq, round_eq,
    lookupA, setA, delA, buildEdgesToMergeMap, processWeldTriangle, processWeldEdge,
    resolveAlias, mergePush, aliasDeletedVertex, fillOutMergeMap, sortKeys, insertSorted,
    verticesA, indicesA, smoothProp_one_refl]

/-- C2 (code-bug evidence): on the tiny coplanar quad `verticesTiny` with
index buffer `[0,1,2,2,1,3]` (two triangles already sharing the indices of
their 0.014-long common edge) and threshold 90 degrees, the flattened alias
table computed inside `weldVertices` is the two-cycle `1 ↦ 2`, `2 ↦ 1`: it
maps 1 to 2 and also maps 2 onward, so applying the table twice differs from
applying it once — the table is not transitively closed. -/
theorem aliasTable_two_cycle :
    lookupA (weldAliasTable (fun n1 n2 : Vector3 =>
        @decide (smoothProp 90 n1 n2) (Classical.propDecidable _))
      verticesTiny indicesTiny) 1 = some 2 ∧
    lookupA (weldAliasTable (fun n1 n2 : Vector3 =>
        @decide (smoothProp 90 n1 n2) (Classical.propDecidable _))
      verticesTiny indicesTiny) 2 = some 1 := by
  constructor <;>
  norm_num [weldAliasTable, computeEdgesToMerge, triples, processTriangle, processEdge,
    getVertexFromIndexBuffer, hashVertex, getNormal, Vector3.crossVectors, Vector3.subVectors,
    Vector3.dot, Vector3.lengthSq, Vector3.distanceToSq, round_eq, lookupA, setA, delA,
    buildEdgesToMergeMap, processWeldTriangle, processWeldEdge, resolveAlias, mergePush,
    aliasDeletedVertex, fillOutMergeMap, sortKeys, insertSorted, verticesTiny, indicesTiny,
    smoothProp_ninety_iff]

/-- C5 (code-bug evidence): welding is not idempotent.  On the tiny coplanar
quad with index buffer `[0,1,2,2,1,3]` and threshold 90 degrees, one weld
swaps the shared-edge indices 1 and 2 (their distance is below the `0.1`
correspondence tolerance, so the weld is twisted), and a second weld swaps
them back: `weld (weld I) ≠ weld I`. -/
theorem weldVertices_not_idempotent :
    weldVertices (fun n1 n2 : Vector3 =>
        @decide (smoothProp 90 n1 n2) (Classical.propDecidable _))
      verticesTiny indicesTiny = [0, 2, 1, 1, 2, 3] ∧
    weldVertices (fun n1 n2 : Vector3 =>
        @decide (smoothProp 90 n1 n2) (Classical.propDecidable _))
      verticesTiny [0, 2, 1, 1, 2, 3] = [0, 1, 2, 2, 1, 3] ∧
    weldVertices (fun n1 n2 : Vector3 =>
        @decide (smoothProp 90 n1 n2) (Classical.propDecidable _))
      verticesTiny
      (weldVertices (fun n1 n2 : Vector3 =>
        @decide (smoothProp 90 n1 n2) (Classical.propDecidable _))
        verticesTiny indicesTiny) ≠
      weldVertices (fun n1 n2 : Vector3 =>
        @decide (smoothProp 90 n1 n2) (Classical.propDecidable _))
        verticesTiny indicesTiny := by
  have h1 : weldVertices (fun n1 n2 : Vector3 =>
      @decide (smoothProp 90 n1 n2) (Classical.propDecidable _))
      verticesTiny indicesTiny = [0, 2, 1, 1, 2, 3] := by
    norm_num [weldVertices, weldAliasTable, computeEdgesToMerge, triples, processTriangle,
      processEdge, getVertexFromIndexBuffer, hashVertex, getNormal, Vector3.crossVectors,
      Vector3.subVectors, Vector3.dot, Vector3.lengthSq, Vector3.distanceToSq, round_eq,
      lookupA, setA, delA, buildEdgesToMergeMap, processWeldTriangle, processWeldEdge,
      resolveAlias, mergePush, aliasDeletedVertex, fillOutMergeMap, sortKeys, insertSorted,
      verticesTiny, indicesTiny, smoothProp_ninety_iff]
  have h2 : weldVertices (fun n1 n2 : Vector3 =>
      @decide (smoothProp 90 n1 n2) (Classical.propDecidable _))
      verticesTiny [0, 2, 1, 1, 2, 3] = [0, 1, 2, 2, 1, 3] := by
    norm_num [weldVertices, weldAliasTable, computeEdgesToMerge, triples, processTriangle,
      processEdge, getVertexFromIndexBuffer, hashVertex, getNormal, Vector3.crossVectors,
      Vector3.subVectors, Vector3.dot, Vector3.lengthSq, Vector3.distanceToSq, round_eq,
      lookupA, setA, delA, buildEdgesToMergeMap, processWeldTriangle, processWeldEdge,
      resolveAlias, mergePush, aliasDeletedVertex, fillOutMergeMap, sortKeys, insertSorted,
      verticesTiny, smoothProp_ninety_iff]
  refine ⟨h1, h2, ?_⟩
  rw [h1, h2]
  decide

/-- C7 (counterexample): the two triangles of `verticesPerp`/`indicesPerp`
share a geometric edge (whose consumed marker is present in the final edge
table, witnessing that the sibling was found) and their unit face normals
`(0,0,1)` and `(0,1,0)` meet at exactly the 90-degree threshold (their
normalized dot product equals `cos(90°)`), yet `computeEdgesToMerge` at
threshold 90 emits no merge pair: faces at exactly the threshold angle are
not merged, because the source compares with strict `>`. -/
theorem edgeMatcher_at_threshold_not_merged :
    computeEdgesToMerge (fun n1 n2 : Vector3 =>
        @decide (smoothProp 90 n1 n2) (Classical.propDecidable _))
      verticesPerp indicesPerp = [] ∧
    lookupA (List.foldl (processTriangle (fun n1 n2 : Vector3 =>
        @decide (smoothProp 90 n1 n2) (Classical.propDecidable _)) verticesPerp)
        ([], []) (triples indicesPerp)).1 ((0, 0, 0), (10000, 0, 0)) = some none ∧
    getNormal (getVertexFromIndexBuffer 0 verticesPerp)
        (getVertexFromIndexBuffer 1 verticesPerp)
        (getVertexFromIndexBuffer 2 verticesPerp) = ⟨0, 0, 1⟩ ∧
    getNormal (getVertexFromIndexBuffer 3 verticesPerp)
        (getVertexFromIndexBuffer 4 verticesPerp)
        (getVertexFromIndexBuffer 5 verticesPerp) = ⟨0, 1, 0⟩ ∧
    (Vector3.dot ⟨0, 0, 1⟩ ⟨0, 1, 0⟩ : ℝ) /
        (Real.sqrt ((Vector3.lengthSq ⟨0, 0, 1⟩ : ℚ) : ℝ) *
          Real.sqrt ((Vector3.lengthSq ⟨0, 1, 0⟩ : ℚ) : ℝ)) =
      Real.cos (((90 : ℚ) : ℝ) * Real.pi / 180) := by
  refine ⟨?_, ?_, ?_, ?_, ?_⟩
  · norm_num [-Prod.mk_zero_zero, computeEdgesToMerge, triples, processTriangle, processEdge,
      getVertexFromIndexBuffer, hashVertex, getNormal, Vector3.crossVectors,
      Vector3.subVectors, Vector3.dot, Vector3.lengthSq, round_eq, lookupA, setA,
      verticesPerp, indicesPerp, smoothProp_ninety_iff]
  · norm_num [-Prod.mk_zero_zero, triples, processTriangle, processEdge,
      getVertexFromIndexBuffer, hashVertex, getNormal, Vector3.crossVectors,
      Vector3.subVectors, Vector3.dot, Vector3.lengthSq, round_eq, lookupA, setA,
      verticesPerp, indicesPerp, smoothProp_ninety_iff]
  · norm_num [getNormal, Vector3.crossVectors, Vector3.subVectors,
      getVertexFromIndexBuffer, verticesPerp, Vector3.mk.injEq]
  · norm_num [getNormal, Vector3.crossVectors, Vector3.subVectors,
      getVertexFromIndexBuffer, verticesPerp, Vector3.mk.injEq]
  · have harg : ((90 : ℚ) : ℝ) * Real.pi / 180 = Real.pi / 2 := by
      push_cast
      ring
    rw [harg, Real.cos_pi_div_two]
    norm_num [Vector3.dot]

/-- C7 (amended): when the Edge Matcher finds a sibling edge — the reversed
key is present and not yet consumed — it marks that key consumed
unconditionally, and it emits the merge pair `(storedEdge, currentEdge)`
exactly when the dot product of the two unit face normals strictly exceeds
`cos(threshold)`, i.e. when the face angle is strictly below the threshold;
faces at exactly the threshold angle are not merged. -/
theorem edgeMatcher_sibling_emits_iff_strictly_below (test : Vector3 → Vector3 → Bool)
    (θ : ℚ) (hag : testAgrees test θ) (normal : Vector3)
    (st : EdgeMap × List MergePair) (e : (VHash × VHash) × (ℕ × ℕ)) (ed : EdgeData)
    (hlk : lookupA st.1 (e.1.2, e.1.1) = some (some ed)) :
    (processEdge test normal st e).1 = setA st.1 (e.1.2, e.1.1) none ∧
    (smoothProp θ normal ed.normal →
      (processEdge test normal st e).2 = st.2 ++ [((ed.index0, ed.index1), e.2)]) ∧
    (¬ smoothProp θ normal ed.normal → (processEdge test normal st e).2 = st.2) := by
  refine ⟨?_, ?_, ?_⟩
  · simp only [processEdge, hlk]
  · intro h
    have ht : test normal ed.normal = true := (hag normal ed.normal).mpr h
    simp [processEdge, hlk, ht]
  · intro h
    have ht : test normal ed.normal = false := by
      cases hb : test normal ed.normal
      · rfl
      · exact absurd ((hag normal ed.normal).mp hb) h
    simp [processEdge, hlk, ht]

/-- C8: a degenerate triangle — one with two of its three vertices hashing to
the same rounded position — leaves the Edge Matcher's state completely
unchanged (no merge pairs and no edge records on its account), and
`weldVertices` on a mesh consisting of that single triangle returns the index
buffer unchanged, for every threshold test. -/
theorem degenerate_triangle_contributes_nothing (test : Vector3 → Vector3 → Bool)
    (vertices : List ℚ) (st : EdgeMap × List MergePair) (a b c : ℕ)
    (hdeg : hashVertex (getVertexFromIndexBuffer a vertices) =
        hashVertex (getVertexFromIndexBuffer b vertices) ∨
      hashVertex (getVertexFromIndexBuffer b vertices) =
        hashVertex (getVertexFromIndexBuffer c vertices) ∨
      hashVertex (getVertexFromIndexBuffer c vertices) =
        hashVertex (getVertexFromIndexBuffer a vertices)) :
    processTriangle test vertices st (a, b, c) = st ∧
    computeEdgesToMerge test vertices [a, b, c] = [] ∧
    weldVertices test vertices [a, b, c] = [a, b, c] := by
  have h1 : ∀ st2 : EdgeMap × List MergePair,
      processTriangle test vertices st2 (a, b, c) = st2 := by
    intro st2
    simp only [processTriangle]
    rw [if_pos hdeg]
  have h2 : computeEdgesToMerge test vertices [a, b, c] = [] := by
    show (processTriangle test vertices ([], []) (a, b, c)).2 = []
    rw [h1]
  have hedge : ∀ stw : WeldState, stw.eMap = [] → ∀ e2,
      processWeldEdge vertices stw e2 = stw := by
    intro stw hw e2
    simp [processWeldEdge, hw, lookupA]
  have htri : processWeldTriangle vertices ⟨[], [], []⟩ (a, b, c) = ⟨[], [], []⟩ := by
    simp only [processWeldTriangle, List.foldl]
    rw [hedge ⟨[], [], []⟩ rfl, hedge ⟨[], [], []⟩ rfl, hedge ⟨[], [], []⟩ rfl]
  have htbl : weldAliasTable test vertices [a, b, c] = [] := by
    simp only [weldAliasTable, h2]
    show fillOutMergeMap (processWeldTriangle vertices ⟨[], [], []⟩ (a, b, c)).mergedMap = []
    rw [htri]
    rfl
  refine ⟨h1 st, h2, ?_⟩
  simp [weldVertices, htbl, lookupA]

/-! ## Claim theorems: structural properties of the rewrite -/

/-- C3: for every well-formed input (spec §6: the index buffer lists 3
indices per triangle) and every threshold test, the index buffer returned by
`weldVertices` has exactly the length of the input index buffer, and that
length is a multiple of 3. -/
theorem weldVertices_length (test : Vector3 → Vector3 → Bool) (vertices : List ℚ)
    (indices : List ℕ) (h3 : indices.length % 3 = 0) :
    (weldVertices test vertices indices).length = indices.length ∧
    (weldVertices test vertices indices).length % 3 = 0 := by
  have hl : (weldVertices test vertices indices).length = indices.length := by
    simp [weldVertices]
  exact ⟨hl, by rw [hl]; exact h3⟩

/-- Witness for `weldVertices_length` at a concrete input. -/
theorem weldVertices_length_witness :
    ([0, 1, 2] : List ℕ).length % 3 = 0 ∧
    ((weldVertices (fun _ _ => true) [] [0, 1, 2]).length = ([0, 1, 2] : List ℕ).length ∧
      (weldVertices (fun _ _ => true) [] [0, 1, 2]).length % 3 = 0) :=
  ⟨by decide, weldVertices_length (fun _ _ => true) [] [0, 1, 2] (by decide)⟩

/-- C4: for every well-formed input, `weldVertices` is exactly the
elementwise rewrite of the input buffer through the flattened alias table:
an index present in the table is replaced by its representative, every other
index is unchanged, no triangle is added, removed or reordered, and equal
input indices are rewritten to equal outputs at every occurrence. -/
theorem weldVertices_is_alias_rewrite (test : Vector3 → Vector3 → Bool)
    (vertices : List ℚ) (indices : List ℕ) (h3 : indices.length % 3 = 0) :
    weldVertices test vertices indices =
      indices.map (fun index =>
        (lookupA (weldAliasTable test vertices indices) index).getD index) ∧
    (∀ k l (hk : k < indices.length) (hl : l < indices.length)
        (hk2 : k < (weldVertices test vertices indices).length)
        (hl2 : l < (weldVertices test vertices indices).length),
      indices.get ⟨k, hk⟩ = indices.get ⟨l, hl⟩ →
        (weldVertices test vertices indices).get ⟨k, hk2⟩ =
          (weldVertices test vertices indices).get ⟨l, hl2⟩) := by
  have hfun : ∀ index : ℕ,
      (match lookupA (weldAliasTable test vertices indices) index with
        | some newIndex => newIndex
        | none => index) =
      (lookupA (weldAliasTable test vertices indices) index).getD index := by
    intro index
    cases lookupA (weldAliasTable test vertices indices) index <;> rfl
  have hmap : weldVertices test vertices indices =
      indices.map (fun index =>
        (lookupA (weldAliasTable test vertices indices) index).getD index) := by
    simp only [weldVertices]
    exact List.map_congr_left (fun x _ => hfun x)
  refine ⟨hmap, ?_⟩
  intro k l hk hl hk2 hl2 he
  have e1 : (weldVertices test vertices indices).get? k =
      some ((lookupA (weldAliasTable test vertices indices)
        (indices.get ⟨k, hk⟩)).getD (indices.get ⟨k, hk⟩)) := by
    rw [hmap, List.get?_map, List.get?_eq_get hk]
    rfl
  have e2 : (weldVertices test vertices indices).get? l =
      some ((lookupA (weldAliasTable test vertices indices)
        (indices.get ⟨l, hl⟩)).getD (indices.get ⟨l, hl⟩)) := by
    rw [hmap, List.get?_map, List.get?_eq_get hl]
    rfl
  have e3 := List.get?_eq_get hk2
  have e4 := List.get?_eq_get hl2
  rw [e1] at e3
  rw [e2] at e4
  rw [he] at e3
  exact Option.some.inj (e3.symm.trans e4)

/-- Witness for `weldVertices_is_alias_rewrite` at a concrete input. -/
theorem weldVertices_is_alias_rewrite_witness :
    ([0, 1, 2, 0, 1, 2] : List ℕ).length % 3 = 0 ∧
    weldVertices (fun _ _ => true) [] [0, 1, 2, 0, 1, 2] =
      [0, 1, 2, 0, 1, 2].map (fun index =>
        (lookupA (weldAliasTable (fun _ _ => true) [] [0, 1, 2, 0, 1, 2]) index).getD index) :=
  ⟨by decide,
   (weldVertices_is_alias_rewrite (fun _ _ => true) [] [0, 1, 2, 0, 1, 2] (by decide)).1⟩

/-! ## Claim theorems: the surface segmenter counter -/

theorem counterAfter_eq (s : FindSurfaces) (counts : List ℕ) :
    counterAfter s counts = s.surfaceId + counts.sum := by
  induction counts generalizing s with
  | nil => simp [counterAfter]
  | cons c rest ih =>
    rw [counterAfter, ih]
    simp [getSurfaceIdAttribute]
    omega

theorem runSegmenter_flatten (s : FindSurfaces) (counts : List ℕ) :
    (runSegmenter s counts).flatten =
      (List.range counts.sum).map (fun k => s.surfaceId + 1 + k) := by
  induction counts generalizing s with
  | nil => simp [runSegmenter]
  | cons c rest ih =>
    rw [runSegmenter, List.flatten_cons, ih]
    simp only [getSurfaceIdAttribute, List.sum_cons]
    rw [List.range_add, List.map_append, List.map_map]
    congr 1
    apply List.map_congr_left
    intro k _
    simp only [Function.comp_apply]
    omega

/-- C9: for a single `FindSurfaces` instance, the `surfaceId` counter is
strictly increasing across repeated invocations of `getSurfaceIdAttribute`
on successive (nonempty) meshes, and the identifiers assigned over the whole
sequence contain no duplicate — successive meshes receive disjoint ranges
and no identifier is ever reused within the instance's lifetime.
(`FindSurfaces` is modelled from the spec, its implementation file being
absent from the source tree; see `getSurfaceIdAttribute`.) -/
theorem surfaceId_strictly_increasing (s : FindSurfaces) (counts : List ℕ)
    (hpos : ∀ c ∈ counts, 1 ≤ c) :
    (∀ k (hk : k < counts.length),
      counterAfter s (counts.take k) < counterAfter s (counts.take (k + 1))) ∧
    (runSegmenter s counts).flatten.Nodup := by
  constructor
  · intro k hk
    rw [counterAfter_eq, counterAfter_eq]
    rw [List.sum_take_succ _ _ hk]
    have h1 : 1 ≤ counts[k] := hpos _ (List.getElem_mem _)
    omega
  · rw [runSegmenter_flatten]
    exact List.Nodup.map (fun a b hab => by omega) (List.nodup_range _)

/-- Witness for `surfaceId_strictly_increasing`: two successive cube meshes
(six surfaces each) processed by one fresh segmenter. -/
theorem surfaceId_strictly_increasing_witness :
    (∀ c ∈ ([6, 6] : List ℕ), 1 ≤ c) ∧
    ((∀ k (hk : k < ([6, 6] : List ℕ).length),
      counterAfter ⟨0⟩ (([6, 6] : List ℕ).take k) <
        counterAfter ⟨0⟩ (([6, 6] : List ℕ).take (k + 1))) ∧
      (runSegmenter ⟨0⟩ [6, 6]).flatten.Nodup) :=
  ⟨by decide, surfaceId_strictly_increasing ⟨0⟩ [6, 6] (by decide)⟩

/-! ## Claim theorems: threshold monotonicity -/

theorem processEdge_mono (test1 test2 : Vector3 → Vector3 → Bool)
    (himp : ∀ a b, test1 a b = true → test2 a b = true) (normal : Vector3)
    (st1 st2 : EdgeMap × List MergePair) (hfst : st1.1 = st2.1) (hsnd : st1.2 <+ st2.2)
    (e : (VHash × VHash) × (ℕ × ℕ)) :
    (processEdge test1 normal st1 e).1 = (processEdge test2 normal st2 e).1 ∧
    (processEdge test1 normal st1 e).2 <+ (processEdge test2 normal st2 e).2 := by
  unfold processEdge
  rw [hfst]
  cases hm : lookupA st2.1 (e.1.2, e.1.1) with
  | none =>
    simp only [hm]
    by_cases hh : lookupA st2.1 e.1 = none
    · rw [if_pos hh, if_pos hh]
      exact ⟨rfl, hsnd⟩
    · rw [if_neg hh, if_neg hh]
      exact ⟨hfst, hsnd⟩
  | some o =>
    cases o with
    | none =>
      simp only [hm]
      by_cases hh : lookupA st2.1 e.1 = none
      · rw [if_pos hh, if_pos hh]
        exact ⟨rfl, hsnd⟩
      · rw [if_neg hh, if_neg hh]
        exact ⟨hfst, hsnd⟩
    | some ed =>
      simp only [hm]
      refine ⟨by trivial, ?_⟩
      cases ht1 : test1 normal ed.normal with
      | false =>
        simp only [ht1, Bool.false_eq_true, if_false]
        cases ht2 : test2 normal ed.normal with
        | false => simpa using hsnd
        | true =>
          simp only [ht2, if_true]
          exact hsnd.trans (List.sublist_append_left _ _)
      | true =>
        have ht2 : test2 normal ed.normal = true := himp _ _ ht1
        simp only [ht1, ht2, if_true]
        exact hsnd.append (List.Sublist.refl _)

theorem foldl_processEdge_mono (test1 test2 : Vector3 → Vector3 → Bool)
    (himp : ∀ a b, test1 a b = true → test2 a b = true) (normal : Vector3)
    (es : List ((VHash × VHash) × (ℕ × ℕ))) :
    ∀ (st1 st2 : EdgeMap × List MergePair), st1.1 = st2.1 → st1.2 <+ st2.2 →
      (List.foldl (processEdge test1 normal) st1 es).1 =
        (List.foldl (processEdge test2 normal) st2 es).1 ∧
      (List.foldl (processEdge test1 normal) st1 es).2 <+
        (List.foldl (processEdge test2 normal) st2 es).2 := by
  induction es with
  | nil => exact fun st1 st2 hfst hsnd => ⟨hfst, hsnd⟩
  | cons e rest ih =>
    intro st1 st2 hfst hsnd
    obtain ⟨f1, s1⟩ := processEdge_mono test1 test2 himp normal st1 st2 hfst hsnd e
    exact ih _ _ f1 s1

theorem processTriangle_mono (test1 test2 : Vector3 → Vector3 → Bool)
    (himp : ∀ a b, test1 a b = true → test2 a b = true) (vertices : List ℚ)
    (st1 st2 : EdgeMap × List MergePair) (hfst : st1.1 = st2.1) (hsnd : st1.2 <+ st2.2)
    (tri : ℕ × ℕ × ℕ) :
    (processTriangle test1 vertices st1 tri).1 = (processTriangle test2 vertices st2 tri).1 ∧
    (processTriangle test1 vertices st1 tri).2 <+ (processTriangle test2 vertices st2 tri).2 := by
  simp only [processTriangle]
  by_cases hd :
      hashVertex (getVertexFromIndexBuffer tri.1 vertices) =
        hashVertex (getVertexFromIndexBuffer tri.2.1 vertices) ∨
      hashVertex (getVertexFromIndexBuffer tri.2.1 vertices) =
        hashVertex (getVertexFromIndexBuffer tri.2.2 vertices) ∨
      hashVertex (getVertexFromIndexBuffer tri.2.2 vertices) =
        hashVertex (getVertexFromIndexBuffer tri.1 vertices)
  · rw [if_pos hd, if_pos hd]
    exact ⟨hfst, hsnd⟩
  · rw [if_neg hd, if_neg hd]
    exact foldl_processEdge_mono test1 test2 himp _ _ st1 st2 hfst hsnd

theorem foldl_processTriangle_mono (test1 test2 : Vector3 → Vector3 → Bool)
    (himp : ∀ a b, test1 a b = true → test2 a b = true) (vertices : List ℚ)
    (tris : List (ℕ × ℕ × ℕ)) :
    ∀ (st1 st2 : EdgeMap × List MergePair), st1.1 = st2.1 → st1.2 <+ st2.2 →
      (List.foldl (processTriangle test1 vertices) st1 tris).1 =
        (List.foldl (processTriangle test2 vertices) st2 tris).1 ∧
      (List.foldl (processTriangle test1 vertices) st1 tris).2 <+
        (List.foldl (processTriangle test2 vertices) st2 tris).2 := by
  induction tris with
  | nil => exact fun st1 st2 hfst hsnd => ⟨hfst, hsnd⟩
  | cons tri rest ih =>
    intro st1 st2 hfst hsnd
    obtain ⟨f1, s1⟩ := processTriangle_mono test1 test2 himp vertices st1 st2 hfst hsnd tri
    exact ih _ _ f1 s1

/-- C6 (amended): threshold monotonicity holds at the Edge Matcher.  For a
fixed well-formed mesh and thresholds `0 ≤ θ1 ≤ θ2 ≤ 180` (degrees), the
list of merge pairs emitted by `computeEdgesToMerge` at threshold `θ1` is a
sublist of the one emitted at `θ2` — the two runs' edge tables evolve
identically, only the angle filter differs — so the number of matched edge
pairs is weakly increasing in the threshold.  Monotonicity does not extend
to the number of vertex pairs `weldVertices` actually welds, which can
decrease as the threshold rises (see `weldedPairCount_not_monotone`). -/
theorem mergePairs_threshold_monotone (vertices : List ℚ) (indices : List ℕ)
    (θ1 θ2 : ℚ) (test1 test2 : Vector3 → Vector3 → Bool)
    (h3 : indices.length % 3 = 0) (h0 : 0 ≤ θ1) (h12 : θ1 ≤ θ2) (h180 : θ2 ≤ 180)
    (ha1 : testAgrees test1 θ1) (ha2 : testAgrees test2 θ2) :
    (computeEdgesToMerge test1 vertices indices) <+
      (computeEdgesToMerge test2 vertices indices) ∧
    (computeEdgesToMerge test1 vertices indices).length ≤
      (computeEdgesToMerge test2 vertices indices).length := by
  have himp : ∀ a b, test1 a b = true → test2 a b = true := by
    intro a b h
    exact (ha2 a b).mpr (smoothProp_mono θ1 θ2 h0 h12 h180 a b ((ha1 a b).mp h))
  have h := foldl_processTriangle_mono test1 test2 himp vertices (triples indices)
    ([], []) ([], []) rfl (List.Sublist.refl _)
  exact ⟨h.2, h.2.length_le⟩

/-- Witness for `mergePairs_threshold_monotone`: scenario A at thresholds 45
and 90 degrees, each with its classical decision function. -/
theorem mergePairs_threshold_monotone_witness :
    indicesA.length % 3 = 0 ∧ (0 : ℚ) ≤ 45 ∧ (45 : ℚ) ≤ 90 ∧ (90 : ℚ) ≤ 180 ∧
    testAgrees (fun n1 n2 : Vector3 =>
      @decide (smoothProp 45 n1 n2) (Classical.propDecidable _)) 45 ∧
    testAgrees (fun n1 n2 : Vector3 =>
      @decide (smoothProp 90 n1 n2) (Classical.propDecidable _)) 90 ∧
    ((computeEdgesToMerge (fun n1 n2 : Vector3 =>
        @decide (smoothProp 45 n1 n2) (Classical.propDecidable _)) verticesA indicesA) <+
      (computeEdgesToMerge (fun n1 n2 : Vector3 =>
        @decide (smoothProp 90 n1 n2) (Classical.propDecidable _)) verticesA indicesA) ∧
      (computeEdgesToMerge (fun n1 n2 : Vector3 =>
        @decide (smoothProp 45 n1 n2) (Classical.propDecidable _)) verticesA indicesA).length ≤
        (computeEdgesToMerge (fun n1 n2 : Vector3 =>
          @decide (smoothProp 90 n1 n2) (Classical.propDecidable _)) verticesA indicesA).length) :=
  ⟨by decide, by norm_num, by norm_num, by norm_num,
   smoothDecide_agrees 45, smoothDecide_agrees 90,
   mergePairs_threshold_monotone verticesA indicesA 45 90 _ _ (by decide)
     (by norm_num) (by norm_num) (by norm_num)
     (smoothDecide_agrees 45) (smoothDecide_agrees 90)⟩

/-! ## Claim theorems: no new indices are introduced -/

theorem lookupA_mem {α β : Type} [DecidableEq α] (m : List (α × β)) (a : α) (b : β)
    (h : lookupA m a = some b) : (a, b) ∈ m := by
  induction m with
  | nil => simp [lookupA] at h
  | cons kv rest ih =>
    obtain ⟨k, v⟩ := kv
    rw [lookupA] at h
    by_cases hk : k = a
    · rw [if_pos hk] at h
      obtain rfl := hk
      obtain rfl : v = b := Option.some.inj h
      exact List.mem_cons_self _ _
    · rw [if_neg hk] at h
      exact List.mem_cons_of_mem _ (ih h)

theorem mem_setA {α β : Type} [DecidableEq α] (m : List (α × β)) (a : α) (b : β)
    (x : α × β) (h : x ∈ setA m a b) : x ∈ m ∨ x = (a, b) := by
  induction m with
  | nil =>
    rw [setA] at h
    exact Or.inr (List.mem_singleton.mp h)
  | cons kv rest ih =>
    obtain ⟨k, v⟩ := kv
    rw [setA] at h
    by_cases hk : k = a
    · rw [if_pos hk] at h
      rcases List.mem_cons.mp h with rfl | hx
      · exact Or.inr (by rw [hk])
      · exact Or.inl (List.mem_cons_of_mem _ hx)
    · rw [if_neg hk] at h
      rcases List.mem_cons.mp h with rfl | hx
      · exact Or.inl (List.mem_cons_self _ _)
      · rcases ih hx with h1 | h2
        · exact Or.inl (List.mem_cons_of_mem _ h1)
        · exact Or.inr h2

theorem mem_delA {α β : Type} [DecidableEq α] (m : List (α × β)) (a : α)
    (x : α × β) (h : x ∈ delA m a) : x ∈ m := by
  induction m with
  | nil =>
    rw [delA] at h
    exact absurd h (List.not_mem_nil _)
  | cons kv rest ih =>
    obtain ⟨k, v⟩ := kv
    rw [delA] at h
    by_cases hk : k = a
    · rw [if_pos hk] at h
      exact List.mem_cons_of_mem _ h
    · rw [if_neg hk] at h
      rcases List.mem_cons.mp h with rfl | hx
      · exact List.mem_cons_self _ _
      · exact List.mem_cons_of_mem _ (ih hx)

theorem triples_mem : ∀ (l : List ℕ) (t : ℕ × ℕ × ℕ), t ∈ triples l →
    t.1 ∈ l ∧ t.2.1 ∈ l ∧ t.2.2 ∈ l
  | [], t, ht => by simp [triples] at ht
  | [a], t, ht => by simp [triples] at ht
  | [a, b], t, ht => by simp [triples] at ht
  | a :: b :: c :: rest, t, ht => by
    rw [triples] at ht
    rcases List.mem_cons.mp ht with rfl | hmem
    · exact ⟨List.mem_cons_self _ _,
        List.mem_cons_of_mem _ (List.mem_cons_self _ _),
        List.mem_cons_of_mem _ (List.mem_cons_of_mem _ (List.mem_cons_self _ _))⟩
    · obtain ⟨h1, h2, h3⟩ := triples_mem rest t hmem
      exact ⟨List.mem_cons_of_mem _ (List.mem_cons_of_mem _ (List.mem_cons_of_mem _ h1)),
        List.mem_cons_of_mem _ (List.mem_cons_of_mem _ (List.mem_cons_of_mem _ h2)),
        List.mem_cons_of_mem _ (List.mem_cons_of_mem _ (List.mem_cons_of_mem _ h3))⟩

theorem processEdge_ok (P : ℕ → Prop) (test : Vector3 → Vector3 → Bool) (normal : Vector3)
    (st : EdgeMap × List MergePair) (e : (VHash × VHash) × (ℕ × ℕ))
    (hst : EdgeStOK P st) (he1 : P e.2.1) (he2 : P e.2.2) :
    EdgeStOK P (processEdge test normal st e) := by
  obtain ⟨hmap, hpairs⟩ := hst
  cases hm : lookupA st.1 (e.1.2, e.1.1) with
  | some o =>
    cases o with
    | some ed =>
      have hres : processEdge test normal st e =
          (setA st.1 (e.1.2, e.1.1) none,
           if test normal ed.normal then st.2 ++ [((ed.index0, ed.index1), e.2)]
           else st.2) := by
        simp only [processEdge, hm]
      rw [hres]
      have hed := hmap _ (lookupA_mem _ _ _ hm) ed rfl
      constructor
      · intro kv hkv ed2 hed2
        rcases mem_setA _ _ _ _ hkv with hin | heq
        · exact hmap _ hin ed2 hed2
        · rw [heq] at hed2
          simp at hed2
      · intro p hp
        by_cases ht : test normal ed.normal = true
        · rw [if_pos ht] at hp
          rcases List.mem_append.mp hp with hp1 | hp2
          · exact hpairs _ hp1
          · obtain rfl := List.mem_singleton.mp hp2
            exact ⟨hed.1, hed.2, he1, he2⟩
        · rw [if_neg ht] at hp
          exact hpairs _ hp
    | none =>
      have hres : processEdge test normal st e =
          if lookupA st.1 e.1 = none then
            (setA st.1 e.1 (some ⟨e.2.1, e.2.2, normal⟩), st.2)
          else st := by
        simp only [processEdge, hm]
      rw [hres]
      by_cases hh : lookupA st.1 e.1 = none
      · rw [if_pos hh]
        constructor
        · intro kv hkv ed2 hed2
          rcases mem_setA _ _ _ _ hkv with hin | heq
          · exact hmap _ hin ed2 hed2
          · rw [heq] at hed2
            obtain rfl : (⟨e.2.1, e.2.2, normal⟩ : EdgeData) = ed2 := Option.some.inj hed2
            exact ⟨he1, he2⟩
        · exact fun p hp => hpairs _ hp
      · rw [if_neg hh]
        exact ⟨hmap, hpairs⟩
  | none =>
    have hres : processEdge test normal st e =
        if lookupA st.1 e.1 = none then
          (setA st.1 e.1 (some ⟨e.2.1, e.2.2, normal⟩), st.2)
        else st := by
      simp only [processEdge, hm]
    rw [hres]
    by_cases hh : lookupA st.1 e.1 = none
    · rw [if_pos hh]
      constructor
      · intro kv hkv ed2 hed2
        rcases mem_setA _ _ _ _ hkv with hin | heq
        · exact hmap _ hin ed2 hed2
        · rw [heq] at hed2
          obtain rfl : (⟨e.2.1, e.2.2, normal⟩ : EdgeData) = ed2 := Option.some.inj hed2
          exact ⟨he1, he2⟩
      · exact fun p hp => hpairs _ hp
    · rw [if_neg hh]
      exact ⟨hmap, hpairs⟩

theorem processTriangle_ok (P : ℕ → Prop) (test : Vector3 → Vector3 → Bool)
    (vertices : List ℚ) (st : EdgeMap × List MergePair) (tri : ℕ × ℕ × ℕ)
    (hst : EdgeStOK P st) (h1 : P tri.1) (h2 : P tri.2.1) (h3 : P tri.2.2) :
    EdgeStOK P (processTriangle test vertices st tri) := by
  simp only [processTriangle]
  by_cases hd :
      hashVertex (getVertexFromIndexBuffer tri.1 vertices) =
        hashVertex (getVertexFromIndexBuffer tri.2.1 vertices) ∨
      hashVertex (getVertexFromIndexBuffer tri.2.1 vertices) =
        hashVertex (getVertexFromIndexBuffer tri.2.2 vertices) ∨
      hashVertex (getVertexFromIndexBuffer tri.2.2 vertices) =
        hashVertex (getVertexFromIndexBuffer tri.1 vertices)
  · rw [if_pos hd]
    exact hst
  · rw [if_neg hd]
    simp only [List.foldl]
    apply processEdge_ok P test _ _ _ ?_ h3 h1
    apply processEdge_ok P test _ _ _ ?_ h2 h3
    exact processEdge_ok P test _ _ _ hst h1 h2

theorem foldl_processTriangle_ok (P : ℕ → Prop) (test : Vector3 → Vector3 → Bool)
    (vertices : List ℚ) (tris : List (ℕ × ℕ × ℕ))
    (htris : ∀ t ∈ tris, P t.1 ∧ P t.2.1 ∧ P t.2.2) :
    ∀ st : EdgeMap × List MergePair, EdgeStOK P st →
      EdgeStOK P (List.foldl (processTriangle test vertices) st tris) := by
  induction tris with
  | nil => exact fun st hst => hst
  | cons tri rest ih =>
    intro st hst
    have ht := htris tri (List.mem_cons_self _ _)
    exact ih (fun t htm => htris t (List.mem_cons_of_mem _ htm)) _
      (processTriangle_ok P test vertices st tri hst ht.1 ht.2.1 ht.2.2)

theorem computeEdgesToMerge_ok (test : Vector3 → Vector3 → Bool) (vertices : List ℚ)
    (indices : List ℕ) :
    ∀ p ∈ computeEdgesToMerge test vertices indices, PairOK (· ∈ indices) p := by
  intro p hp
  have h := foldl_processTriangle_ok (· ∈ indices) test vertices (triples indices)
    (fun t ht => triples_mem indices t ht) ([], [])
    ⟨fun kv hkv => absurd hkv (List.not_mem_nil _),
     fun q hq => absurd hq (List.not_mem_nil _)⟩
  exact h.2 p hp

theorem resolveAlias_ok (P : ℕ → Prop) (al : List (ℕ × ℕ))
    (hal : ∀ kv ∈ al, P kv.1 ∧ P kv.2) (i : ℕ) (hi : P i) : P (resolveAlias al i) := by
  cases h : lookupA al i with
  | none =>
    have hr : resolveAlias al i = i := by
      unfold resolveAlias
      rw [h]
    rw [hr]
    exact hi
  | some v =>
    by_cases hv : v = 0
    · have hr : resolveAlias al i = i := by
        unfold resolveAlias
        rw [h]
        dsimp only
        rw [if_pos hv]
      rw [hr]
      exact hi
    · have hr : resolveAlias al i = v := by
        unfold resolveAlias
        rw [h]
        dsimp only
        rw [if_neg hv]
      rw [hr]
      exact (hal _ (lookupA_mem _ _ _ h)).2

theorem mergePush_ok (P : ℕ → Prop) (m : List (ℕ × List ℕ))
    (hm : ∀ kv ∈ m, P kv.1 ∧ ∀ x ∈ kv.2, P x) (i1 i2 : ℕ) (h1 : P i1) (h2 : P i2) :
    ∀ kv ∈ mergePush m i1 i2, P kv.1 ∧ ∀ x ∈ kv.2, P x := by
  intro kv hkv
  unfold mergePush at hkv
  cases hl : lookupA m i1 with
  | none =>
    rw [hl] at hkv
    rcases mem_setA _ _ _ _ hkv with hin | heq
    · exact hm _ hin
    · rw [heq]
      refine ⟨h1, ?_⟩
      intro x hx
      obtain rfl := List.mem_singleton.mp hx
      exact h2
  | some l =>
    rw [hl] at hkv
    rcases mem_setA _ _ _ _ hkv with hin | heq
    · exact hm _ hin
    · rw [heq]
      have hl2 := hm _ (lookupA_mem _ _ _ hl)
      refine ⟨h1, ?_⟩
      intro x hx
      rcases List.mem_append.mp hx with hx1 | hx2
      · exact hl2.2 _ hx1
      · obtain rfl := List.mem_singleton.mp hx2
        exact h2

theorem aliasDeletedVertex_ok (P : ℕ → Prop) (al : List (ℕ × ℕ))
    (hal : ∀ kv ∈ al, P kv.1 ∧ P kv.2) (d r : ℕ) (hd : P d) (hr : P r) :
    ∀ kv ∈ aliasDeletedVertex al d r, P kv.1 ∧ P kv.2 := by
  intro kv hkv
  unfold aliasDeletedVertex at hkv
  by_cases hdr : d = r
  · rw [if_pos hdr] at hkv
    exact hal _ hkv
  · rw [if_neg hdr] at hkv
    rcases mem_setA _ _ _ _ hkv with hin | heq
    · exact hal _ hin
    · rw [heq]
      exact ⟨hd, hr⟩

theorem weldMergeStep_ok (P : ℕ → Prop) (st : WeldState) (hst : WeldStOK P st)
    (key : ℕ × ℕ) (b0 b1 b2 b3 : ℕ) (h0 : P b0) (h1 : P b1) (h2 : P b2) (h3 : P b3) :
    WeldStOK P
      ⟨delA (delA st.eMap key)
          (resolveAlias st.vertexAliases b2, resolveAlias st.vertexAliases b3),
        mergePush
          (mergePush st.mergedMap (resolveAlias st.vertexAliases b0)
            (resolveAlias st.vertexAliases b2))
          (resolveAlias st.vertexAliases b1) (resolveAlias st.vertexAliases b3),
        aliasDeletedVertex
          (aliasDeletedVertex st.vertexAliases (resolveAlias st.vertexAliases b2)
            (resolveAlias st.vertexAliases b0))
          (resolveAlias st.vertexAliases b3) (resolveAlias st.vertexAliases b1)⟩ := by
  obtain ⟨hemap, hmm, hal⟩ := hst
  have r0 := resolveAlias_ok P st.vertexAliases hal b0 h0
  have r1 := resolveAlias_ok P st.vertexAliases hal b1 h1
  have r2 := resolveAlias_ok P st.vertexAliases hal b2 h2
  have r3 := resolveAlias_ok P st.vertexAliases hal b3 h3
  refine ⟨?_, ?_, ?_⟩
  · intro kv hkv
    exact hemap _ (mem_delA _ _ _ (mem_delA _ _ _ hkv))
  · exact mergePush_ok P _ (mergePush_ok P _ hmm _ _ r0 r2) _ _ r1 r3
  · exact aliasDeletedVertex_ok P _ (aliasDeletedVertex_ok P _ hal _ _ r2 r0) _ _ r3 r1

theorem processWeldEdge_ok (P : ℕ → Prop) (vertices : List ℚ) (st : WeldState)
    (e : ℕ × ℕ) (hst : WeldStOK P st) : WeldStOK P (processWeldEdge vertices st e) := by
  have hbody : ∀ key : ℕ × ℕ, ∀ p : MergePair, lookupA st.eMap key = some p →
      ∀ q : WeldState,
      q = (let chosen :=
            if (p.1.1 = e.1 ∧ p.1.2 = e.2) ∨ (p.1.1 = e.2 ∧ p.1.2 = e.1) then (p.2, p.1)
            else (p.1, p.2)
          let otherEdge := chosen.1
          let originalEdge := chosen.2
          let index2 := otherEdge.1
          let index3 := otherEdge.2
          let index0 := originalEdge.1
          let index1 := originalEdge.2
          if index0 = index2 ∧ index1 = index3 then st
          else
            let v0 := getVertexFromIndexBuffer index0 vertices
            let v2 := getVertexFromIndexBuffer index2 vertices
            let swapped :=
              if Vector3.distanceToSq v0 v2 > 1 / 100 then (index3, index2)
              else (index2, index3)
            let index2 := swapped.1
            let index3 := swapped.2
            let index0 := resolveAlias st.vertexAliases index0
            let index1 := resolveAlias st.vertexAliases index1
            let index2 := resolveAlias st.vertexAliases index2
            let index3 := resolveAlias st.vertexAliases index3
            let mm := mergePush (mergePush st.mergedMap index0 index2) index1 index3
            let al := aliasDeletedVertex (aliasDeletedVertex st.vertexAliases index2 index0)
              index3 index1
            let em := delA (delA st.eMap key) (index2, index3)
            ⟨em, mm, al⟩) →
      WeldStOK P q := by
    intro key p hkp q hq
    have hp : PairOK P p := hst.1 _ (lookupA_mem _ _ _ hkp)
    obtain ⟨hp1, hp2, hp3, hp4⟩ := hp
    by_cases hC : (p.1.1 = e.1 ∧ p.1.2 = e.2) ∨ (p.1.1 = e.2 ∧ p.1.2 = e.1)
    · rw [if_pos hC] at hq
      dsimp only at hq
      by_cases hd : p.1.1 = p.2.1 ∧ p.1.2 = p.2.2
      · rw [if_pos hd] at hq
        rw [hq]
        exact hst
      · rw [if_neg hd] at hq
        by_cases hs : Vector3.distanceToSq (getVertexFromIndexBuffer p.1.1 vertices)
            (getVertexFromIndexBuffer p.2.1 vertices) > 1 / 100
        · rw [if_pos hs] at hq
          dsimp only at hq
          rw [hq]
          exact weldMergeStep_ok P st hst key p.1.1 p.1.2 p.2.2 p.2.1 hp1 hp2 hp4 hp3
        · rw [if_neg hs] at hq
          dsimp only at hq
          rw [hq]
          exact weldMergeStep_ok P st hst key p.1.1 p.1.2 p.2.1 p.2.2 hp1 hp2 hp3 hp4
    · rw [if_neg hC] at hq
      dsimp only at hq
      by_cases hd : p.2.1 = p.1.1 ∧ p.2.2 = p.1.2
      · rw [if_pos hd] at hq
        rw [hq]
        exact hst
      · rw [if_neg hd] at hq
        by_cases hs : Vector3.distanceToSq (getVertexFromIndexBuffer p.2.1 vertices)
            (getVertexFromIndexBuffer p.1.1 vertices) > 1 / 100
        · rw [if_pos hs] at hq
          dsimp only at hq
          rw [hq]
          exact weldMergeStep_ok P st hst key p.2.1 p.2.2 p.1.2 p.1.1 hp3 hp4 hp2 hp1
        · rw [if_neg hs] at hq
          dsimp only at hq
          rw [hq]
          exact weldMergeStep_ok P st hst key p.2.1 p.2.2 p.1.1 p.1.2 hp3 hp4 hp1 hp2
  cases hk1 : lookupA st.eMap (e.2, e.1) with
  | some p =>
    refine hbody (e.2, e.1) p hk1 _ ?_
    simp only [processWeldEdge, hk1]
  | none =>
    cases hk2 : lookupA st.eMap (e.1, e.2) with
    | some p =>
      refine hbody (e.1, e.2) p hk2 _ ?_
      simp only [processWeldEdge, hk1, hk2]
    | none =>
      have hres : processWeldEdge vertices st e = st := by
        simp only [processWeldEdge, hk1, hk2]
      rw [hres]
      exact hst

theorem processWeldTriangle_ok (P : ℕ → Prop) (vertices : List ℚ) (st : WeldState)
    (tri : ℕ × ℕ × ℕ) (hst : WeldStOK P st) :
    WeldStOK P (processWeldTriangle vertices st tri) := by
  simp only [processWeldTriangle, List.foldl]
  exact processWeldEdge_ok P vertices _ _
    (processWeldEdge_ok P vertices _ _ (processWeldEdge_ok P vertices _ _ hst))

theorem foldl_processWeldTriangle_ok (P : ℕ → Prop) (vertices : List ℚ)
    (tris : List (ℕ × ℕ × ℕ)) :
    ∀ st : WeldState, WeldStOK P st →
      WeldStOK P (List.foldl (processWeldTriangle vertices) st tris) := by
  induction tris with
  | nil => exact fun st hst => hst
  | cons tri rest ih =>
    intro st hst
    exact ih _ (processWeldTriangle_ok P vertices st tri hst)

theorem buildEdgesToMergeMap_ok (P : ℕ → Prop) (pairs : List MergePair)
    (hpairs : ∀ p ∈ pairs, PairOK P p) :
    ∀ kv ∈ buildEdgesToMergeMap pairs, PairOK P kv.2 := by
  have hgen : ∀ (ps : List MergePair), (∀ p ∈ ps, PairOK P p) →
      ∀ m : List ((ℕ × ℕ) × MergePair), (∀ kv ∈ m, PairOK P kv.2) →
      ∀ kv ∈ List.foldl (fun m2 p => setA (setA m2 p.1 p) p.2 p) m ps, PairOK P kv.2 := by
    intro ps
    induction ps with
    | nil => exact fun _ m hm kv hkv => hm kv hkv
    | cons p rest ih =>
      intro hps m hm kv hkv
      refine ih (fun q hq => hps q (List.mem_cons_of_mem _ hq)) _ ?_ kv hkv
      intro kv2 hkv2
      have hp := hps p (List.mem_cons_self _ _)
      rcases mem_setA _ _ _ _ hkv2 with hin | heq
      · rcases mem_setA _ _ _ _ hin with hin2 | heq2
        · exact hm _ hin2
        · rw [heq2]
          exact hp
      · rw [heq]
        exact hp
  exact hgen pairs hpairs [] (fun kv hkv => absurd hkv (List.not_mem_nil _))

theorem fillOutMergeMap_ok (P : ℕ → Prop) (mm : List (ℕ × List ℕ))
    (hmm : ∀ kv ∈ mm, P kv.1 ∧ ∀ x ∈ kv.2, P x) :
    ∀ kv ∈ fillOutMergeMap mm, P kv.1 ∧ P kv.2 := by
  have hinner : ∀ (k : ℕ) (inds : List ℕ), P k → (∀ x ∈ inds, P x) →
      ∀ nm : List (ℕ × ℕ), (∀ kv ∈ nm, P kv.1 ∧ P kv.2) →
      ∀ kv ∈ List.foldl (fun nm2 ind => setA nm2 ind k) nm inds, P kv.1 ∧ P kv.2 := by
    intro k inds hk
    induction inds with
    | nil => exact fun _ nm hnm kv hkv => hnm kv hkv
    | cons ind rest ih =>
      intro hinds nm hnm kv hkv
      refine ih (fun x hx => hinds x (List.mem_cons_of_mem _ hx)) _ ?_ kv hkv
      intro kv2 hkv2
      rcases mem_setA _ _ _ _ hkv2 with hin | heq
      · exact hnm _ hin
      · rw [heq]
        exact ⟨hinds ind (List.mem_cons_self _ _), hk⟩
  have houter : ∀ (keys : List ℕ) (nm : List (ℕ × ℕ)), (∀ kv ∈ nm, P kv.1 ∧ P kv.2) →
      ∀ kv ∈ List.foldl
        (fun nm2 k =>
          match lookupA mm k with
          | some inds => inds.foldl (fun nm3 ind => setA nm3 ind k) nm2
          | none => nm2) nm keys, P kv.1 ∧ P kv.2 := by
    intro keys
    induction keys with
    | nil => exact fun nm hnm kv hkv => hnm kv hkv
    | cons k rest ih =>
      intro nm hnm kv hkv
      refine ih _ ?_ kv hkv
      cases hl : lookupA mm k with
      | none =>
        simp only [hl]
        exact hnm
      | some inds =>
        simp only [hl]
        have hkk := hmm _ (lookupA_mem _ _ _ hl)
        exact hinner k inds hkk.1 hkk.2 nm hnm
  intro kv hkv
  exact houter _ [] (fun kv2 hkv2 => absurd hkv2 (List.not_mem_nil _)) kv hkv

theorem weldAliasTable_ok (test : Vector3 → Vector3 → Bool) (vertices : List ℚ)
    (indices : List ℕ) :
    ∀ kv ∈ weldAliasTable test vertices indices, kv.1 ∈ indices ∧ kv.2 ∈ indices := by
  intro kv hkv
  have hpairs := computeEdgesToMerge_ok test vertices indices
  have hbuild := buildEdgesToMergeMap_ok (· ∈ indices) _ hpairs
  have hfold := foldl_processWeldTriangle_ok (· ∈ indices) vertices (triples indices)
    ⟨buildEdgesToMergeMap (computeEdgesToMerge test vertices indices), [], []⟩
    ⟨hbuild,
     fun kv2 hkv2 => absurd hkv2 (List.not_mem_nil _),
     fun kv2 hkv2 => absurd hkv2 (List.not_mem_nil _)⟩
  exact fillOutMergeMap_ok (· ∈ indices) _ hfold.2.1 kv hkv

/-- C10: for every well-formed input, every value of the index buffer
returned by `weldVertices` already occurs in the input index buffer —
welding never introduces a vertex index that no input triangle referenced.
(Every number flowing through the merge machinery — edge records, merge
pairs, the map of merged vertices, the alias table, the flattened table —
is read off the input index buffer.) -/
theorem weldVertices_no_new_indices (test : Vector3 → Vector3 → Bool)
    (vertices : List ℚ) (indices : List ℕ) (h3 : indices.length % 3 = 0) :
    ∀ x ∈ weldVertices test vertices indices, x ∈ indices := by
  intro x hx
  unfold weldVertices at hx
  rcases List.mem_map.mp hx with ⟨idx, hidx, heq⟩
  cases hl : lookupA (weldAliasTable test vertices indices) idx with
  | none =>
    rw [hl] at heq
    rw [← heq]
    exact hidx
  | some v =>
    rw [hl] at heq
    rw [← heq]
    exact (weldAliasTable_ok test vertices indices _ (lookupA_mem _ _ _ hl)).2

/-- Witness for `weldVertices_no_new_indices` at scenario A. -/
theorem weldVertices_no_new_indices_witness :
    indicesA.length % 3 = 0 ∧
    (∀ x ∈ weldVertices (fun _ _ => true) verticesA indicesA, x ∈ indicesA) :=
  ⟨by decide, weldVertices_no_new_indices (fun _ _ => true) verticesA indicesA (by decide)⟩

/-- Witness for `degenerate_triangle_contributes_nothing`: the triangle
`(0,1,2)` over an empty position buffer, all three vertices hashing to the
rounded origin. -/
theorem degenerate_triangle_witness :
    (hashVertex (getVertexFromIndexBuffer 0 []) = hashVertex (getVertexFromIndexBuffer 1 []) ∨
      hashVertex (getVertexFromIndexBuffer 1 []) = hashVertex (getVertexFromIndexBuffer 2 []) ∨
      hashVertex (getVertexFromIndexBuffer 2 []) = hashVertex (getVertexFromIndexBuffer 0 [])) ∧
    (processTriangle (fun _ _ => true) [] ([], []) (0, 1, 2) = ([], []) ∧
      computeEdgesToMerge (fun _ _ => true) [] [0, 1, 2] = [] ∧
      weldVertices (fun _ _ => true) [] [0, 1, 2] = [0, 1, 2]) :=
  ⟨Or.inl rfl,
   degenerate_triangle_contributes_nothing (fun _ _ => true) [] ([], []) 0 1 2 (Or.inl rfl)⟩

/-- Witness for `edgeMatcher_sibling_emits_iff_strictly_below`: a stored
edge with unit normal `(0,0,1)` matched by a reversed sibling carried by a
face with unit normal `(0,1,0)` at threshold 90 degrees. -/
theorem edgeMatcher_sibling_witness :
    testAgrees (fun n1 n2 : Vector3 =>
      @decide (smoothProp 90 n1 n2) (Classical.propDecidable _)) 90 ∧
    lookupA ([((((0, 0, 0) : VHash), ((10000, 0, 0) : VHash)),
        some (⟨0, 1, ⟨0, 0, 1⟩⟩ : EdgeData))] : EdgeMap)
      ((((10000, 0, 0) : VHash), ((0, 0, 0) : VHash)).2,
       (((10000, 0, 0) : VHash), ((0, 0, 0) : VHash)).1) = some (some ⟨0, 1, ⟨0, 0, 1⟩⟩) ∧
    ((processEdge (fun n1 n2 : Vector3 =>
          @decide (smoothProp 90 n1 n2) (Classical.propDecidable _)) ⟨0, 1, 0⟩
        ([((((0, 0, 0) : VHash), ((10000, 0, 0) : VHash)), some ⟨0, 1, ⟨0, 0, 1⟩⟩)], [])
        ((((10000, 0, 0) : VHash), ((0, 0, 0) : VHash)), (3, 4))).1 =
      setA [((((0, 0, 0) : VHash), ((10000, 0, 0) : VHash)), some ⟨0, 1, ⟨0, 0, 1⟩⟩)]
        ((0, 0, 0), (10000, 0, 0)) none ∧
     (smoothProp 90 ⟨0, 1, 0⟩ (⟨0, 1, ⟨0, 0, 1⟩⟩ : EdgeData).normal →
       (processEdge (fun n1 n2 : Vector3 =>
            @decide (smoothProp 90 n1 n2) (Classical.propDecidable _)) ⟨0, 1, 0⟩
          ([((((0, 0, 0) : VHash), ((10000, 0, 0) : VHash)), some ⟨0, 1, ⟨0, 0, 1⟩⟩)], [])
          ((((10000, 0, 0) : VHash), ((0, 0, 0) : VHash)), (3, 4))).2 =
        [] ++ [((0, 1), (3, 4))]) ∧
     (¬ smoothProp 90 ⟨0, 1, 0⟩ (⟨0, 1, ⟨0, 0, 1⟩⟩ : EdgeData).normal →
       (processEdge (fun n1 n2 : Vector3 =>
            @decide (smoothProp 90 n1 n2) (Classical.propDecidable _)) ⟨0, 1, 0⟩
          ([((((0, 0, 0) : VHash), ((10000, 0, 0) : VHash)), some ⟨0, 1, ⟨0, 0, 1⟩⟩)], [])
          ((((10000, 0, 0) : VHash), ((0, 0, 0) : VHash)), (3, 4))).2 = [])) :=
  ⟨smoothDecide_agrees 90, rfl,
   edgeMatcher_sibling_emits_iff_strictly_below
     (fun n1 n2 : Vector3 => @decide (smoothProp 90 n1 n2) (Classical.propDecidable _))
     90 (smoothDecide_agrees 90) ⟨0, 1, 0⟩
     ([((((0, 0, 0) : VHash), ((10000, 0, 0) : VHash)), some ⟨0, 1, ⟨0, 0, 1⟩⟩)], [])
     ((((10000, 0, 0) : VHash), ((0, 0, 0) : VHash)), (3, 4)) ⟨0, 1, ⟨0, 0, 1⟩⟩ rfl⟩


theorem smoothProp_eightynine_refl : smoothProp 89 ⟨0, 0, 1⟩ ⟨0, 0, 1⟩ := by
  unfold smoothProp
  have hd : Vector3.dot ⟨0, 0, 1⟩ ⟨0, 0, 1⟩ = 1 := by
    norm_num [Vector3.dot]
  have hl : Vector3.lengthSq ⟨0, 0, 1⟩ = 1 := by
    norm_num [Vector3.lengthSq]
  rw [hd, hl]
  have hpi := Real.pi_pos
  have hne : Real.cos ((89 : ℝ) * Real.pi / 180) ≠ 1 := by
    intro h
    have h0 := (Real.cos_eq_one_iff_of_lt_of_lt (by nlinarith) (by nlinarith)).mp h
    nlinarith
  have hlt : Real.cos ((89 : ℝ) * Real.pi / 180) < 1 :=
    lt_of_le_of_ne (Real.cos_le_one _) hne
  have hform : ((1 : ℚ) : ℝ) / (Real.sqrt ((1 : ℚ) : ℝ) * Real.sqrt ((1 : ℚ) : ℝ)) = 1 := by
    push_cast
    rw [Real.sqrt_one]
    norm_num
  have harg : ((89 : ℚ) : ℝ) * Real.pi / 180 = (89 : ℝ) * Real.pi / 180 := by
    push_cast
    ring
  rw [hform, harg]
  exact hlt

theorem smoothProp_ninetyone_refl : smoothProp 91 ⟨0, 0, 1⟩ ⟨0, 0, 1⟩ := by
  unfold smoothProp
  have hd : Vector3.dot ⟨0, 0, 1⟩ ⟨0, 0, 1⟩ = 1 := by
    norm_num [Vector3.dot]
  have hl : Vector3.lengthSq ⟨0, 0, 1⟩ = 1 := by
    norm_num [Vector3.lengthSq]
  rw [hd, hl]
  have hpi := Real.pi_pos
  have hneg : Real.cos ((91 : ℝ) * Real.pi / 180) < 0 :=
    Real.cos_neg_of_pi_div_two_lt_of_lt (by nlinarith) (by nlinarith)
  have hform : ((1 : ℚ) : ℝ) / (Real.sqrt ((1 : ℚ) : ℝ) * Real.sqrt ((1 : ℚ) : ℝ)) = 1 := by
    push_cast
    rw [Real.sqrt_one]
    norm_num
  have harg : ((91 : ℚ) : ℝ) * Real.pi / 180 = (91 : ℝ) * Real.pi / 180 := by
    push_cast
    ring
  rw [hform, harg]
  linarith

theorem smoothProp_eightynine_perp : ¬ smoothProp 89 ⟨-1, 0, 0⟩ ⟨0, 1, 0⟩ := by
  unfold smoothProp
  intro h
  have hd : Vector3.dot ⟨-1, 0, 0⟩ ⟨0, 1, 0⟩ = 0 := by
    norm_num [Vector3.dot]
  rw [hd] at h
  have hpi := Real.pi_pos
  have harg : ((89 : ℚ) : ℝ) * Real.pi / 180 = (89 : ℝ) * Real.pi / 180 := by
    push_cast
    ring
  rw [harg] at h
  have hpos : 0 < Real.cos ((89 : ℝ) * Real.pi / 180) :=
    Real.cos_pos_of_mem_Ioo ⟨by nlinarith, by nlinarith⟩
  have hzero : ((0 : ℚ) : ℝ) /
      (Real.sqrt ((Vector3.lengthSq ⟨-1, 0, 0⟩ : ℚ) : ℝ) *
        Real.sqrt ((Vector3.lengthSq ⟨0, 1, 0⟩ : ℚ) : ℝ)) = 0 := by
    norm_num
  rw [hzero] at h
  linarith

theorem smoothProp_ninetyone_perp : smoothProp 91 ⟨-1, 0, 0⟩ ⟨0, 1, 0⟩ := by
  unfold smoothProp
  have hd : Vector3.dot ⟨-1, 0, 0⟩ ⟨0, 1, 0⟩ = 0 := by
    norm_num [Vector3.dot]
  rw [hd]
  have hpi := Real.pi_pos
  have harg : ((91 : ℚ) : ℝ) * Real.pi / 180 = (91 : ℝ) * Real.pi / 180 := by
    push_cast
    ring
  rw [harg]
  have hneg : Real.cos ((91 : ℝ) * Real.pi / 180) < 0 :=
    Real.cos_neg_of_pi_div_two_lt_of_lt (by nlinarith) (by nlinarith)
  have hzero : ((0 : ℚ) : ℝ) /
      (Real.sqrt ((Vector3.lengthSq ⟨-1, 0, 0⟩ : ℚ) : ℝ) *
        Real.sqrt ((Vector3.lengthSq ⟨0, 1, 0⟩ : ℚ) : ℝ)) = 0 := by
    norm_num
  rw [hzero]
  exact hneg

/-- C6 (counterexample): raising the threshold can decrease the number of
vertex pairs `weldVertices` welds.  On the `verticesC6`/`indicesC6` mesh,
thresholds 89 and 91 degrees (89 ≤ 91, both within 0..180): at 89 the one
coplanar merge pair welds three vertex pairs (alias entries 4→0, 3→1, 0→4;
five buffer positions rewritten — the shared edge is re-processed through
its stale `edgesToMergeMap` key and, because the alias of vertex 4 is the
falsy representative 0, records the extra 0→4 entry).  At 91 the
exactly-perpendicular wing pair is also merged; its twisted self-weld pushes
vertex 4 onto `mergedMap[4]`, and `fillOutMergeMap`'s ascending-key
last-write-wins enumeration then overwrites the 4→0 alias with 4→4, leaving
only two welded pairs (3→1, 0→4) and two rewritten positions. -/
theorem weldedPairCount_not_monotone :
    (0 : ℚ) ≤ 89 ∧ (89 : ℚ) ≤ 91 ∧ (91 : ℚ) ≤ 180 ∧
    weldedPairCount (fun n1 n2 : Vector3 =>
      @decide (smoothProp 89 n1 n2) (Classical.propDecidable _)) verticesC6 indicesC6 = 3 ∧
    weldedPairCount (fun n1 n2 : Vector3 =>
      @decide (smoothProp 91 n1 n2) (Classical.propDecidable _)) verticesC6 indicesC6 = 2 ∧
    rewrittenCount (fun n1 n2 : Vector3 =>
      @decide (smoothProp 89 n1 n2) (Classical.propDecidable _)) verticesC6 indicesC6 = 5 ∧
    rewrittenCount (fun n1 n2 : Vector3 =>
      @decide (smoothProp 91 n1 n2) (Classical.propDecidable _)) verticesC6 indicesC6 = 2 := by
  have t89 : weldAliasTable (fun n1 n2 : Vector3 =>
      @decide (smoothProp 89 n1 n2) (Classical.propDecidable _)) verticesC6 indicesC6 =
      [(4, 0), (3, 1), (1, 1), (0, 4)] := by
    norm_num [-Prod.mk_zero_zero, weldAliasTable, computeEdgesToMerge, triples,
      processTriangle, processEdge, getVertexFromIndexBuffer, hashVertex, getNormal,
      Vector3.crossVectors, Vector3.subVectors, Vector3.dot, Vector3.lengthSq,
      Vector3.distanceToSq, round_eq, lookupA, setA, delA, buildEdgesToMergeMap,
      processWeldTriangle, processWeldEdge, resolveAlias, mergePush, aliasDeletedVertex,
      fillOutMergeMap, sortKeys, insertSorted, verticesC6, indicesC6,
      smoothProp_eightynine_refl, smoothProp_eightynine_perp]
  have t91 : weldAliasTable (fun n1 n2 : Vector3 =>
      @decide (smoothProp 91 n1 n2) (Classical.propDecidable _)) verticesC6 indicesC6 =
      [(4, 4), (3, 1), (1, 1), (0, 4), (6, 6)] := by
    norm_num [-Prod.mk_zero_zero, weldAliasTable, computeEdgesToMerge, triples,
      processTriangle, processEdge, getVertexFromIndexBuffer, hashVertex, getNormal,
      Vector3.crossVectors, Vector3.subVectors, Vector3.dot, Vector3.lengthSq,
      Vector3.distanceToSq, round_eq, lookupA, setA, delA, buildEdgesToMergeMap,
      processWeldTriangle, processWeldEdge, resolveAlias, mergePush, aliasDeletedVertex,
      fillOutMergeMap, sortKeys, insertSorted, verticesC6, indicesC6,
      smoothProp_ninetyone_refl, smoothProp_ninetyone_perp]
  refine ⟨by norm_num, by norm_num, by norm_num, ?_, ?_, ?_, ?_⟩
  · unfold weldedPairCount
    rw [t89]
    decide
  · unfold weldedPairCount
    rw [t91]
    decide
  · unfold rewrittenCount weldVertices
    rw [t89]
    decide
  · unfold rewrittenCount weldVertices
    rw [t91]
    decide

end Weld
